import Mathlib

/-!
Shallow embedding of the `dns_name` crate (`src/lib.rs`): a Public Suffix
List trie, its compiler (`List::build` / `List::append`), and the name
matcher (`DnsName::find_match`) together with the `DnsName` accessor layer.

Rust strings are modelled as lists of characters (`Str`).  `usize`
subtraction is modelled as checked subtraction: an arithmetic underflow
(which panics in a checked Rust build) is surfaced as the `panicked`
outcome of the matcher.  `HashMap<String, ListNode>` is modelled as an
association list with first-match lookup and in-place update, which has
the same observable map semantics.
-/

set_option maxHeartbeats 1000000

/-- Rust `String` / `&str`, modelled as a list of characters. -/
abbrev Str := List Char

/-- The constant `PREVAILING_STAR_RULE: &str = "*"`. -/
def PREVAILING_STAR_RULE : Str := ['*']

/-- Rust `str::split(sep)`: splitting the empty string yields one empty
piece, and every separator opens a new piece, as in Rust. -/
def splitChar (sep : Char) : Str → List Str
  | [] => [[]]
  | c :: rest =>
    if c = sep then [] :: splitChar sep rest
    else
      match splitChar sep rest with
      | [] => [[c]]
      | h :: t => (c :: h) :: t

/-- Rust `str::trim_end_matches('.')`: remove every trailing dot. -/
def trimEndDots (s : Str) : Str :=
  (s.reverse.dropWhile (fun c => c = '.')).reverse

/-- Rust `char::to_ascii_lowercase`. -/
def lowerChar (c : Char) : Char :=
  if 'A' ≤ c ∧ c ≤ 'Z' then Char.ofNat (c.toNat + 32) else c

/-- Rust `str::to_ascii_lowercase`. -/
def to_ascii_lowercase (s : Str) : Str := s.map lowerChar

/-- Rust `str::starts_with('.')`: the first character is a dot. -/
def startsWithDot (s : Str) : Bool :=
  match s with
  | c :: _ => c = '.'
  | [] => false

/-- Checked `usize` subtraction: `a - b`, `none` on underflow (a panic in
a checked Rust build). -/
def checkedSub (a b : Nat) : Option Nat :=
  if b ≤ a then some (a - b) else none

/-- `struct ListLeaf { is_exception_rule: bool }`. -/
structure ListLeaf where
  is_exception_rule : Bool
deriving DecidableEq, Repr

/-- `struct ListNode { children: HashMap<String, ListNode>, leaf: Option<ListLeaf> }`,
with the hash map as an association list. -/
inductive ListNode where
  | mk (children : List (Str × ListNode)) (leaf : Option ListLeaf)

/-- The `children` field of a `ListNode`. -/
def ListNode.children : ListNode → List (Str × ListNode)
  | .mk c _ => c

/-- The `leaf` field of a `ListNode`. -/
def ListNode.leaf : ListNode → Option ListLeaf
  | .mk _ l => l

/-- `ListNode::new()`. -/
def ListNode.new : ListNode := ListNode.mk [] none

/-- `HashMap::get` on the association list (first match). -/
def lookupChild (children : List (Str × ListNode)) (key : Str) : Option ListNode :=
  match children with
  | [] => none
  | (k, v) :: rest => if k = key then some v else lookupChild rest key

/-- Update of the association list: replace the binding for `key` if
present, otherwise add it (the effect of `entry(..).or_insert_with(..)`
followed by mutation through the returned reference). -/
def updateChild (children : List (Str × ListNode)) (key : Str) (v : ListNode) :
    List (Str × ListNode) :=
  match children with
  | [] => [(key, v)]
  | (k, w) :: rest =>
    if k = key then (key, v) :: rest else (k, w) :: updateChild rest key v

/-- `struct List { root: ListNode }` (named `SuffixList` here because `List`
is Lean's list type). -/
structure SuffixList where
  root : ListNode

/-- Compile-time errors of `List::build` / `List::append`:
`InvalidRule` is the `io::ErrorKind::InvalidData` "invalid rule" error,
`EmptyList` the `io::ErrorKind::NotFound` "invalid list" error. -/
inductive BuildErr where
  | invalidRule
  | emptyList
deriving DecidableEq, Repr

/-- The label-insertion loop of `List::append`: walk the labels, rejecting
an empty label, descending via `entry(..).or_insert_with(ListNode::new)`,
and finally set `current.leaf = Some(ListLeaf::new(is_exception_rule))`.
(On error Rust leaves already-inserted intermediate nodes behind, but the
partially mutated list is discarded by `build`, so returning the node
unchanged is observationally equivalent.) -/
def insertRule (node : ListNode) (labels : List Str) (isExc : Bool) :
    Except BuildErr ListNode :=
  match labels with
  | [] => .ok (ListNode.mk node.children (some ⟨isExc⟩))
  | label :: rest =>
    if label.isEmpty then .error .invalidRule
    else
      let child := (lookupChild node.children label).getD ListNode.new
      match insertRule child rest isExc with
      | .ok child' => .ok (ListNode.mk (updateChild node.children label child') node.leaf)
      | .error e => .error e

/-- `List::append`: strip a leading `!` (exception marker) and insert the
rule's labels in `rsplit('.')` order (reversed split). -/
def append (node : ListNode) (rule : Str) : Except BuildErr ListNode :=
  match rule with
  | '!' :: rest => insertRule node ((splitChar '.' rest).reverse) true
  | _ => insertRule node ((splitChar '.' rule).reverse) false

/-- The `for rule in res.split(',') { list.append(rule)?; }` loop of
`List::build`. -/
def appendAll (node : ListNode) : List Str → Except BuildErr ListNode
  | [] => .ok node
  | r :: rs =>
    match append node r with
    | .ok node' => appendAll node' rs
    | .error e => .error e

/-- `List::build`: append every comma-separated rule, fail with the
`EmptyList` error if the root has no children, then append the
prevailing star rule. -/
def build (res : Str) : Except BuildErr SuffixList :=
  match appendAll ListNode.new (splitChar ',' res) with
  | .error e => .error e
  | .ok root =>
    if root.children.isEmpty then .error .emptyList
    else
      match append root PREVAILING_STAR_RULE with
      | .error e => .error e
      | .ok root' => .ok ⟨root'⟩

/-- Rust `Range<usize>` (`end` is a Lean keyword, so the field is `stop`). -/
structure RRange where
  start : Nat
  stop : Nat
deriving DecidableEq, Repr

/-- `struct DnsName` with its five fields. -/
structure DnsName where
  name : Str
  rname : Str
  suffix : Option RRange
  root : Option RRange
  registrable : Option RRange
deriving DecidableEq, Repr

/-- `DnsName::new`: reverse the characters for `rname` and derive the
`registrable` range as `root.start .. suffix.start - 1` when both ranges
are present.  The `usize` expression `suffix.start - 1` underflows when
`suffix.start == 0`; that (never reached from `find_match`) case is
modelled as `none` (a panic in a checked build). -/
def DnsName.new (name : Str) (suffix root : Option RRange) : Option DnsName :=
  let rname := name.reverse
  match suffix, root with
  | some suf, some rt =>
    if suf.start = 0 then none
    else some ⟨name, rname, some suf, some rt, some ⟨rt.start, suf.start - 1⟩⟩
  | suf, rt => some ⟨name, rname, suf, rt, none⟩

/-- `DnsName::subname_length`: the byte length of the last `s_len` labels
of the (re-trimmed) input plus `s_len - 1` separating dots.  The `usize`
expression `s_len - 1` underflows when `s_len == 0`, modelled as `none`
(a panic in a checked build; a wrap to `usize::MAX` in release). -/
def subname_length (input : Str) (s_len : Nat) : Option Nat :=
  let len := ((splitChar '.' (trimEndDots input)).reverse.take s_len).foldl
    (fun acc part => acc + part.length) 0
  match s_len with
  | 0 => none
  | n + 1 => some (len + n)

/-- Record `longest_valid = Some((list_leaf, s_labels_len))` when the
current node carries a leaf. -/
def recordLeaf (child : ListNode) (n : Nat) (lv : Option (Bool × Nat)) :
    Option (Bool × Nat) :=
  match child.leaf with
  | some leaf => some (leaf.is_exception_rule, n)
  | none => lv

/-- The `for label in domain.rsplit('.')` trie walk of
`DnsName::find_match`: follow the exact child, else the `*` child, else
stop; count matched labels; remember the last leaf seen. -/
def walk (node : ListNode) (labels : List Str) (s_labels_len : Nat)
    (longest_valid : Option (Bool × Nat)) : Option (Bool × Nat) :=
  match labels with
  | [] => longest_valid
  | label :: rest =>
    match lookupChild node.children label with
    | some child =>
      walk child rest (s_labels_len + 1)
        (recordLeaf child (s_labels_len + 1) longest_valid)
    | none =>
      match lookupChild node.children ['*'] with
      | some child =>
        walk child rest (s_labels_len + 1)
          (recordLeaf child (s_labels_len + 1) longest_valid)
      | none => longest_valid

/-- Result of `DnsName::find_match` (an `io::Result<DnsName>` whose only
error is `InvalidInput`), plus the `panicked` outcome modelling a `usize`
underflow in a checked build. -/
inductive MatchResult where
  | ok (d : DnsName)
  | invalidInput
  | panicked
deriving DecidableEq, Repr

/-- The `match longest_valid` tail of `DnsName::find_match`: adjust the
suffix length for an exception rule, convert label counts to byte ranges
with `subname_length`, decide `registrable` (the variable holding the
*root* range) by comparing label counts, and build the `DnsName`. -/
def finishMatch (inp domain : Str) (longest_valid : Option (Bool × Nat)) :
    MatchResult :=
  match longest_valid with
  | some (isExc, sLen) =>
    let suffix_len := if isExc then sLen - 1 else sLen
    match subname_length domain suffix_len with
    | none => .panicked
    | some subLen =>
      match checkedSub domain.length subLen with
      | none => .panicked
      | some sStart =>
        let suffix : RRange := ⟨sStart, domain.length⟩
        let d_labels_len := domain.count '.' + 1
        if d_labels_len > suffix_len then
          match subname_length domain (suffix_len + 1) with
          | none => .panicked
          | some rootLen =>
            match checkedSub domain.length rootLen with
            | none => .panicked
            | some rStart =>
              match DnsName.new inp (some suffix) (some ⟨rStart, domain.length⟩) with
              | some d => .ok d
              | none => .panicked
        else
          match DnsName.new inp (some suffix) none with
          | some d => .ok d
          | none => .panicked
  | none =>
    match DnsName.new inp none none with
    | some d => .ok d
    | none => .panicked

/-- `DnsName::find_match`: accept the root name `"."`; reject any other
leading dot; lowercase; trim trailing dots; sanity-check the labels
(non-empty, no space character); walk the trie; finish. -/
def find_match (input : Str) (list : SuffixList) : MatchResult :=
  if input.length = 1 ∧ startsWithDot input then
    match DnsName.new input none none with
    | some d => .ok d
    | none => .panicked
  else if startsWithDot input then .invalidInput
  else
    let inp := to_ascii_lowercase input
    let domain := trimEndDots inp
    if (splitChar '.' domain).any (fun label => label.isEmpty || label.contains ' ') then
      .invalidInput
    else
      finishMatch inp domain (walk list.root ((splitChar '.' domain).reverse) 0 none)

/-- `DnsName::parse`. -/
def DnsName.parse (domain : Str) (list : SuffixList) : MatchResult :=
  find_match domain list

/-- `List::parse_domain` (the backwards-compatibility entry point). -/
def SuffixList.parse_domain (list : SuffixList) (domain : Str) : MatchResult :=
  DnsName.parse domain list

/-- `List::parse_dns_name`. -/
def SuffixList.parse_dns_name (list : SuffixList) (domain : Str) : MatchResult :=
  DnsName.parse domain list

/-- Accessor `DnsName::root`: the substring of `name` from `root.start`
to the end of `name`, provided `root.start < name.len()`. -/
def DnsName.rootText (d : DnsName) : Option Str :=
  match d.root with
  | some r => if r.start < d.name.length then some (d.name.drop r.start) else none
  | none => none

/-- Accessor `DnsName::suffix`: the substring of `name` from
`suffix.start` to the end of `name`, provided `suffix.start < name.len()`. -/
def DnsName.suffixText (d : DnsName) : Option Str :=
  match d.suffix with
  | some r => if r.start < d.name.length then some (d.name.drop r.start) else none
  | none => none

/-- Accessor `DnsName::registrable`: the substring of `name` at
`registrable.start .. registrable.end`, provided both offsets are below
`name.len()`. -/
def DnsName.registrableText (d : DnsName) : Option Str :=
  match d.registrable with
  | some r =>
    if r.start < d.name.length ∧ r.stop < d.name.length then
      some ((d.name.drop r.start).take (r.stop - r.start))
    else none
  | none => none

/-! Concrete rule texts and names used by individual claims. -/

/-- Extract the compiled list, defaulting to an empty trie (used only as
an existential witness next to a proof that `build` succeeded). -/
def builtOrEmpty (s : Str) : SuffixList :=
  match build s with
  | .ok l => l
  | .error _ => ⟨ListNode.new⟩

/-- The rule text `co.uk`. -/
def coUkRules : Str := ['c','o','.','u','k']

/-- The name `foo.uk`. -/
def fooUk : Str := ['f','o','o','.','u','k']

/-- The rule text `!com`. -/
def bangComRules : Str := ['!','c','o','m']

/-- The rule text (and name) `com`. -/
def comRules : Str := ['c','o','m']

/-- The name `exa<TAB>mple.com` (a tab character inside a label). -/
def tabName : Str := ['e','x','a','\t','m','p','l','e','.','c','o','m']

/-- The rule text `*.ck,!www.ck`. -/
def ckRules : Str := ['*','.','c','k',',','!','w','w','w','.','c','k']

/-- The name `www.ck`. -/
def wwwCk : Str := ['w','w','w','.','c','k']

/-- The rule text `uk.com`. -/
def ukComRules : Str := ['u','k','.','c','o','m']

/-- The name `wWw.BlUeCaTnEtWoRkS.Uk.CoM.` (mixed case, trailing dot). -/
def bluecatName : Str :=
  ['w','W','w','.','B','l','U','e','C','a','T','n','E','t','W','o','R','k','S',
   '.','U','k','.','C','o','M','.']

/-- The lowercased form `www.bluecatnetworks.uk.com.`. -/
def bluecatLower : Str :=
  ['w','w','w','.','b','l','u','e','c','a','t','n','e','t','w','o','r','k','s',
   '.','u','k','.','c','o','m','.']

/-- The name `foo.madeup`. -/
def fooMadeup : Str := ['f','o','o','.','m','a','d','e','u','p']

/-- The name `foo.com`. -/
def fooCom : Str := ['f','o','o','.','c','o','m']

/-- Claim C1, counterexample: with the single explicit rule `co.uk`
(plus the automatic fallback `*`), the valid name `foo.uk` classifies
successfully but with NO suffix at all: the walk follows the explicit
`uk` child (which shadows the fallback `*` at the root) and never meets
a leaf, so the fallback does not guarantee a single-label suffix. -/
theorem C1_counterexample :
    ∃ l, build coUkRules = .ok l ∧
      find_match fooUk l = .ok ⟨fooUk, ['k','u','.','o','o','f'], none, none, none⟩ :=
  ⟨builtOrEmpty coUkRules, rfl, rfl⟩

/-- Claim C2: with the compiled rule list `!com`, classifying `com`
reaches `subname_length` with an effective suffix length of zero, and
the `usize` expression `s_len - 1` underflows: a panic in a checked
build (and a wrap to a nonsensical out-of-bounds range in release).
The computation is not total. -/
theorem C2_exception_rule_underflow_panics :
    ∃ l, build bangComRules = .ok l ∧ find_match comRules l = .panicked :=
  ⟨builtOrEmpty bangComRules, rfl, rfl⟩

/-- Claim C4: with rules `*.ck` and `!www.ck`, classifying `www.ck`
succeeds with suffix text `ck`, root text `www.ck` and registrable text
`www`: the exception rule carves its own label out of the suffix. -/
theorem C4_exception_carve_out :
    ∃ l d, build ckRules = .ok l ∧ find_match wwwCk l = .ok d ∧
      d.suffixText = some ['c','k'] ∧ d.rootText = some wwwCk ∧
      d.registrableText = some ['w','w','w'] :=
  ⟨builtOrEmpty ckRules,
   ⟨wwwCk, ['k','c','.','w','w','w'], some ⟨4, 6⟩, some ⟨0, 6⟩, some ⟨0, 3⟩⟩,
   rfl, rfl, rfl, rfl, rfl⟩

/-- Claim C6, counterexample: compiling the empty rule text fails with
the `InvalidRule` error (the empty entry has an empty label), which is
distinct from the `EmptyList` error the claim announces. -/
theorem C6_counterexample :
    build [] = .error .invalidRule ∧ BuildErr.invalidRule ≠ BuildErr.emptyList :=
  ⟨rfl, by decide⟩

/-- Claim C6, amended: compiling the empty rule text fails with the
`InvalidRule` error: `"".split(',')` yields one empty entry, whose single
empty label is rejected by `append` before the `EmptyList` check can run. -/
theorem C6_empty_rule_text_fails_invalid_rule :
    build [] = .error .invalidRule := rfl

/-- Claim C7, counterexample: with the rule list `com` (which has no rule
for the trailing label `madeup`), classifying `foo.madeup` yields suffix
`madeup` via the wildcard fallback, but the root is PRESENT (text
`foo.madeup`), not absent as the claim states. -/
theorem C7_counterexample :
    ∃ l d, build comRules = .ok l ∧ find_match fooMadeup l = .ok d ∧
      d.suffixText = some ['m','a','d','e','u','p'] ∧ d.rootText = some fooMadeup :=
  ⟨builtOrEmpty comRules,
   ⟨fooMadeup, ['p','u','e','d','a','m','.','o','o','f'],
    some ⟨4, 10⟩, some ⟨0, 10⟩, some ⟨0, 3⟩⟩,
   rfl, rfl, rfl, rfl⟩

/-- Claim C10: `List::parse_domain` and `List::parse_dns_name` agree on
every list and every input: both simply call `DnsName::parse`. -/
theorem C10_parse_domain_eq_parse_dns_name (l : SuffixList) (s : Str) :
    l.parse_domain s = l.parse_dns_name s := rfl

/-!
Proof infrastructure: sums of label lengths, joining labels with a
separator, and the relationship between `splitChar`, `joinSep`,
`trimEndDots` and `subname_length`.
-/

/-- Total length of a list of labels. -/
def sumLens (ls : List Str) : Nat := (ls.map List.length).sum

/-- Join labels with a separator character (inverse of `splitChar`). -/
def joinSep (sep : Char) : List Str → Str
  | [] => []
  | [x] => x
  | x :: y :: t => x ++ sep :: joinSep sep (y :: t)

theorem sumLens_nil : sumLens [] = 0 := rfl

theorem sumLens_cons (x : Str) (ls : List Str) :
    sumLens (x :: ls) = x.length + sumLens ls := by
  simp [sumLens]

theorem sumLens_append (ls₁ ls₂ : List Str) :
    sumLens (ls₁ ++ ls₂) = sumLens ls₁ + sumLens ls₂ := by
  simp [sumLens]

theorem sumLens_reverse (ls : List Str) : sumLens ls.reverse = sumLens ls := by
  simp [sumLens, List.map_reverse, List.sum_reverse]

theorem sumLens_take_le (n : Nat) (ls : List Str) :
    sumLens (ls.take n) ≤ sumLens ls := by
  conv_rhs => rw [← List.take_append_drop n ls]
  rw [sumLens_append]
  omega

theorem splitChar_ne_nil (sep : Char) (s : Str) : splitChar sep s ≠ [] := by
  cases s with
  | nil => simp [splitChar]
  | cons c rest =>
    simp only [splitChar]
    split
    · simp
    · split <;> simp

theorem splitChar_cons_exists (sep : Char) (s : Str) :
    ∃ y t, splitChar sep s = y :: t := by
  cases h : splitChar sep s with
  | nil => exact absurd h (splitChar_ne_nil sep s)
  | cons y t => exact ⟨y, t, rfl⟩

theorem joinSep_splitChar (sep : Char) (s : Str) :
    joinSep sep (splitChar sep s) = s := by
  induction s with
  | nil => rfl
  | cons c rest ih =>
    obtain ⟨y, t, hyt⟩ := splitChar_cons_exists sep rest
    simp only [splitChar]
    by_cases hc : c = sep
    · rw [if_pos hc, hyt]
      show [] ++ sep :: joinSep sep (y :: t) = c :: rest
      rw [← hyt, ih]
      simp [hc]
    · rw [if_neg hc, hyt]
      rw [hyt] at ih
      cases t with
      | nil =>
        show c :: y = c :: rest
        simpa [joinSep] using congrArg (c :: ·) ih
      | cons t0 t1 =>
        show (c :: y) ++ sep :: joinSep sep (t0 :: t1) = c :: rest
        simp only [joinSep] at ih
        simp [ih]

theorem length_joinSep (sep : Char) (ls : List Str) (h : ls ≠ []) :
    (joinSep sep ls).length = sumLens ls + (ls.length - 1) := by
  induction ls with
  | nil => exact absurd rfl h
  | cons x t ih =>
    cases t with
    | nil => simp [joinSep, sumLens]
    | cons y t' =>
      have hy := ih (by simp)
      simp only [joinSep, List.length_append, List.length_cons, sumLens_cons] at hy ⊢
      omega

theorem joinSep_append (sep : Char) (ls₁ ls₂ : List Str) (h1 : ls₁ ≠ [])
    (h2 : ls₂ ≠ []) :
    joinSep sep (ls₁ ++ ls₂) = joinSep sep ls₁ ++ sep :: joinSep sep ls₂ := by
  induction ls₁ with
  | nil => exact absurd rfl h1
  | cons x t ih =>
    cases t with
    | nil =>
      cases ls₂ with
      | nil => exact absurd rfl h2
      | cons y t2 => simp [joinSep]
    | cons x2 t' =>
      have := ih (by simp)
      simp only [List.cons_append, joinSep, List.append_eq] at this ⊢
      rw [this]
      simp

theorem count_splitChar (sep : Char) (s : Str) :
    s.count sep + 1 = (splitChar sep s).length := by
  induction s with
  | nil => rfl
  | cons c rest ih =>
    obtain ⟨y, t, hyt⟩ := splitChar_cons_exists sep rest
    simp only [splitChar]
    by_cases hc : c = sep
    · rw [if_pos hc]
      simp only [List.length_cons, ← ih, List.count_cons]
      simp [hc]
    · rw [if_neg hc, hyt]
      rw [hyt] at ih
      simp only [List.length_cons] at ih ⊢
      simp only [List.count_cons, ← ih]
      simp [Ne.symm hc, hc]

theorem dropWhile_self_idem (p : Char → Bool) (l : Str) :
    (l.dropWhile p).dropWhile p = l.dropWhile p := by
  induction l with
  | nil => rfl
  | cons c t ih =>
    by_cases hp : p c
    · simp [List.dropWhile_cons, hp, ih]
    · simp [List.dropWhile_cons, hp]

theorem trimEndDots_idem (s : Str) :
    trimEndDots (trimEndDots s) = trimEndDots s := by
  unfold trimEndDots
  rw [List.reverse_reverse, dropWhile_self_idem]

theorem trimEndDots_decomp (s : Str) :
    ∃ ds : Str, (∀ c ∈ ds, c = '.') ∧ s = trimEndDots s ++ ds := by
  refine ⟨(s.reverse.takeWhile (fun c => c = '.')).reverse, ?_, ?_⟩
  · intro c hc
    rw [List.mem_reverse] at hc
    simpa using List.mem_takeWhile_imp hc
  · unfold trimEndDots
    conv_lhs => rw [← s.reverse_reverse]
    conv_lhs =>
      rw [← List.takeWhile_append_dropWhile (fun c => decide (c = '.')) s.reverse]
    rw [List.reverse_append]

theorem length_trimEndDots_le (s : Str) :
    (trimEndDots s).length ≤ s.length := by
  obtain ⟨ds, _, hds⟩ := trimEndDots_decomp s
  conv_rhs => rw [hds]
  simp

theorem foldl_add_length (ls : List Str) (a : Nat) :
    ls.foldl (fun acc part => acc + part.length) a = a + sumLens ls := by
  induction ls generalizing a with
  | nil => simp [sumLens]
  | cons x t ih => simp [ih, sumLens_cons]; omega

theorem subname_eq (dom : Str) {n : Nat} (h : 0 < n) :
    subname_length dom n =
      some (sumLens ((splitChar '.' (trimEndDots dom)).reverse.take n) + (n - 1)) := by
  obtain ⟨m, rfl⟩ : ∃ m, n = m + 1 := ⟨n - 1, by omega⟩
  simp [subname_length, foldl_add_length, sumLens]

theorem subname_pos_arg {dom : Str} {n A : Nat}
    (hA : subname_length dom n = some A) : 0 < n := by
  cases n with
  | zero => simp [subname_length] at hA
  | succ m => omega

theorem subname_isSome (dom : Str) {n : Nat} (h : 0 < n) :
    ∃ A, subname_length dom n = some A :=
  ⟨_, subname_eq dom h⟩

theorem length_dom_eq (dom : Str) :
    dom.length = sumLens (splitChar '.' dom) + ((splitChar '.' dom).length - 1) := by
  conv_lhs => rw [← joinSep_splitChar '.' dom]
  exact length_joinSep _ _ (splitChar_ne_nil _ _)

theorem subname_le_length {dom : Str} (htrim : trimEndDots dom = dom) {n A : Nat}
    (hle : n ≤ (splitChar '.' dom).length) (hA : subname_length dom n = some A) :
    A ≤ dom.length := by
  have h0 : 0 < n := subname_pos_arg hA
  rw [subname_eq dom h0, htrim] at hA
  have hA' := Option.some.inj hA
  have h1 : sumLens ((splitChar '.' dom).reverse.take n) ≤
      sumLens (splitChar '.' dom) := by
    calc sumLens ((splitChar '.' dom).reverse.take n)
        ≤ sumLens (splitChar '.' dom).reverse := sumLens_take_le _ _
      _ = sumLens (splitChar '.' dom) := sumLens_reverse _
  have h2 := length_dom_eq dom
  omega

theorem subname_pos {dom : Str} (htrim : trimEndDots dom = dom)
    (hval : ∀ lab ∈ splitChar '.' dom, lab ≠ []) {n A : Nat}
    (hA : subname_length dom n = some A) : 0 < A := by
  have h0 : 0 < n := subname_pos_arg hA
  rw [subname_eq dom h0, htrim] at hA
  have hA' := Option.some.inj hA
  obtain ⟨y, t, hyt⟩ : ∃ y t, (splitChar '.' dom).reverse = y :: t := by
    cases h : (splitChar '.' dom).reverse with
    | nil =>
      have := splitChar_ne_nil '.' dom
      simp [List.reverse_eq_nil_iff] at h
      exact absurd h this
    | cons y t => exact ⟨y, t, rfl⟩
  have hy : y ∈ splitChar '.' dom := by
    rw [← List.mem_reverse, hyt]; exact List.mem_cons_self _ _
  have hylen : 0 < y.length := by
    have := hval y hy
    cases y with
    | nil => exact absurd rfl this
    | cons a b => simp
  obtain ⟨m, rfl⟩ : ∃ m, n = m + 1 := ⟨n - 1, by omega⟩
  rw [hyt] at hA'
  simp only [List.take_succ_cons, sumLens_cons] at hA'
  omega

theorem subname_decomp {dom : Str} (htrim : trimEndDots dom = dom)
    {n A : Nat} (hlt : n < (splitChar '.' dom).length)
    (hA : subname_length dom n = some A) :
    dom.drop (dom.length - A) =
      joinSep '.' ((splitChar '.' dom).drop ((splitChar '.' dom).length - n)) ∧
    A = (joinSep '.' ((splitChar '.' dom).drop ((splitChar '.' dom).length - n))).length ∧
    A < dom.length ∧
    dom.length - A =
      (joinSep '.' ((splitChar '.' dom).take ((splitChar '.' dom).length - n))).length + 1 := by
  have h0 : 0 < n := subname_pos_arg hA
  rw [subname_eq dom h0, htrim] at hA
  have hA' := Option.some.inj hA
  set ls := splitChar '.' dom with hls
  set k := ls.length with hk
  set j := k - n with hj
  have hFB : ls.take j ++ ls.drop j = ls := List.take_append_drop j ls
  have hjk : j < k := by omega
  have hFlen : (ls.take j).length = j := by
    rw [List.length_take]; omega
  have hBlen : (ls.drop j).length = n := by
    rw [List.length_drop]; omega
  have hFne : ls.take j ≠ [] := by
    intro hcon
    rw [hcon] at hFlen
    simp at hFlen
    omega
  have hBne : ls.drop j ≠ [] := by
    intro hcon
    rw [hcon] at hBlen
    simp at hBlen
    omega
  have hdom : dom = joinSep '.' (ls.take j) ++ '.' :: joinSep '.' (ls.drop j) := by
    conv_lhs => rw [← joinSep_splitChar '.' dom]
    rw [← hls, ← hFB, joinSep_append _ _ _ hFne hBne, hFB]
  have hrev : ls.reverse = (ls.drop j).reverse ++ (ls.take j).reverse := by
    conv_lhs => rw [← hFB]
    rw [List.reverse_append]
  have htake : ls.reverse.take n = (ls.drop j).reverse := by
    rw [hrev]
    exact List.take_left' (by rw [List.length_reverse]; exact hBlen)
  have hAval : A = sumLens (ls.drop j) + (n - 1) := by
    rw [← hA', htake, sumLens_reverse]
  have hSA : (joinSep '.' (ls.drop j)).length = A := by
    rw [length_joinSep _ _ hBne, hBlen, hAval]
  have hL : dom.length =
      (joinSep '.' (ls.take j)).length + 1 + (joinSep '.' (ls.drop j)).length := by
    conv_lhs => rw [hdom]
    simp only [List.length_append, List.length_cons]
    omega
  refine ⟨?_, ?_, ?_, ?_⟩
  · have harr : joinSep '.' (ls.take j) ++ '.' :: joinSep '.' (ls.drop j) =
        (joinSep '.' (ls.take j) ++ ['.']) ++ joinSep '.' (ls.drop j) := by
      simp
    have hstart : dom.length - A = (joinSep '.' (ls.take j) ++ ['.']).length := by
      simp only [List.length_append, List.length_cons, List.length_nil]
      omega
    rw [hstart]
    conv_lhs => rw [hdom, harr]
    exact List.drop_left _ _
  · omega
  · omega
  · omega

theorem joinSep_cons (sep : Char) (x : Str) (ls : List Str) (h : ls ≠ []) :
    joinSep sep (x :: ls) = x ++ sep :: joinSep sep ls := by
  cases ls with
  | nil => exact absurd rfl h
  | cons y t => rfl

theorem subname_full {dom : Str} (htrim : trimEndDots dom = dom) {n A : Nat}
    (heq : n = (splitChar '.' dom).length)
    (hA : subname_length dom n = some A) : A = dom.length := by
  have h0 : 0 < n := subname_pos_arg hA
  rw [subname_eq dom h0, htrim] at hA
  have hA' := Option.some.inj hA
  have htake : (splitChar '.' dom).reverse.take n = (splitChar '.' dom).reverse := by
    have : n = (splitChar '.' dom).reverse.length := by
      rw [List.length_reverse]; exact heq
    rw [this, List.take_length]
  rw [htake, sumLens_reverse] at hA'
  rw [← hA', length_dom_eq dom, heq]

theorem subname_succ_decomp {dom : Str} (htrim : trimEndDots dom = dom)
    {n A A' : Nat} (hlt : n < (splitChar '.' dom).length)
    (hA : subname_length dom n = some A)
    (hA' : subname_length dom (n + 1) = some A') :
    ∃ mid : Str, dom.drop (dom.length - A') = mid ++ '.' :: dom.drop (dom.length - A) ∧
      A' = mid.length + 1 + A ∧ A' ≤ dom.length := by
  obtain ⟨hdropA, hAlen, hAlt, hstartA⟩ := subname_decomp htrim hlt hA
  have h0 : 0 < n := subname_pos_arg hA
  by_cases hsucc : n + 1 < (splitChar '.' dom).length
  · obtain ⟨hdropA', hA'len, hA'lt, _⟩ := subname_decomp htrim hsucc hA'
    have hj : (splitChar '.' dom).length - (n + 1) < (splitChar '.' dom).length := by
      omega
    have hdc := List.drop_eq_getElem_cons hj
    have h1 : (splitChar '.' dom).length - (n + 1) + 1 =
        (splitChar '.' dom).length - n := by omega
    rw [h1] at hdc
    have hBne : (splitChar '.' dom).drop ((splitChar '.' dom).length - n) ≠ [] := by
      intro hcon
      have := congrArg List.length hcon
      simp only [List.length_drop, List.length_nil] at this
      omega
    refine ⟨(splitChar '.' dom).get ⟨(splitChar '.' dom).length - (n + 1), hj⟩,
      ?_, ?_, by omega⟩
    · rw [hdropA', hdropA, hdc, joinSep_cons _ _ _ hBne, List.get_eq_getElem]
    · rw [List.get_eq_getElem, hA'len, hdc, joinSep_cons _ _ _ hBne]
      simp only [List.length_append, List.length_cons]
      omega
  · have heq : n + 1 = (splitChar '.' dom).length := by omega
    have hAfull : A' = dom.length := subname_full htrim heq hA'
    refine ⟨joinSep '.' ((splitChar '.' dom).take ((splitChar '.' dom).length - n)),
      ?_, ?_, by omega⟩
    · rw [hAfull, Nat.sub_self, List.drop_zero, hdropA]
      have hFne : (splitChar '.' dom).take ((splitChar '.' dom).length - n) ≠ [] := by
        intro hcon
        have := congrArg List.length hcon
        rw [List.length_take, List.length_nil] at this
        omega
      have hBne : (splitChar '.' dom).drop ((splitChar '.' dom).length - n) ≠ [] := by
        intro hcon
        have := congrArg List.length hcon
        simp only [List.length_drop, List.length_nil] at this
        omega
      conv_lhs => rw [← joinSep_splitChar '.' dom]
      conv_lhs =>
        rw [← List.take_append_drop ((splitChar '.' dom).length - n) (splitChar '.' dom)]
      rw [joinSep_append _ _ _ hFne hBne]
    · rw [hAfull]
      omega

theorem checkedSub_some {a b c : Nat} (h : checkedSub a b = some c) :
    b ≤ a ∧ c = a - b := by
  unfold checkedSub at h
  split at h
  · exact ⟨by assumption, (Option.some.inj h).symm⟩
  · exact absurd h (by simp)

theorem lookup_update_self (ch : List (Str × ListNode)) (key : Str) (v : ListNode) :
    lookupChild (updateChild ch key v) key = some v := by
  induction ch with
  | nil => simp [updateChild, lookupChild]
  | cons p rest ih =>
    obtain ⟨k', w⟩ := p
    by_cases hk : k' = key
    · simp [updateChild, hk, lookupChild]
    · simp [updateChild, hk, lookupChild, ih]

theorem walk_some (node : ListNode) (ls : List Str) (n : Nat) (e : Bool) (m : Nat) :
    ∃ e' m', walk node ls n (some (e, m)) = some (e', m') ∧
      ((e' = e ∧ m' = m) ∨ n < m') := by
  induction ls generalizing node n e m with
  | nil => exact ⟨e, m, rfl, Or.inl ⟨rfl, rfl⟩⟩
  | cons label rest ih =>
    simp only [walk]
    cases h1 : lookupChild node.children label with
    | some child =>
      cases hleaf : child.leaf with
      | some leaf =>
        simp only [recordLeaf, hleaf]
        obtain ⟨e', m', hw, hd⟩ := ih child (n + 1) leaf.is_exception_rule (n + 1)
        refine ⟨e', m', hw, Or.inr ?_⟩
        rcases hd with ⟨_, rfl⟩ | hlt
        · omega
        · omega
      | none =>
        simp only [recordLeaf, hleaf]
        obtain ⟨e', m', hw, hd⟩ := ih child (n + 1) e m
        refine ⟨e', m', hw, ?_⟩
        rcases hd with ⟨he, hm⟩ | hlt
        · exact Or.inl ⟨he, hm⟩
        · exact Or.inr (by omega)
    | none =>
      cases h2 : lookupChild node.children ['*'] with
      | some child =>
        cases hleaf : child.leaf with
        | some leaf =>
          simp only [recordLeaf, hleaf]
          obtain ⟨e', m', hw, hd⟩ := ih child (n + 1) leaf.is_exception_rule (n + 1)
          refine ⟨e', m', hw, Or.inr ?_⟩
          rcases hd with ⟨_, rfl⟩ | hlt
          · omega
          · omega
        | none =>
          simp only [recordLeaf, hleaf]
          obtain ⟨e', m', hw, hd⟩ := ih child (n + 1) e m
          refine ⟨e', m', hw, ?_⟩
          rcases hd with ⟨he, hm⟩ | hlt
          · exact Or.inl ⟨he, hm⟩
          · exact Or.inr (by omega)
      | none => exact ⟨e, m, rfl, Or.inl ⟨rfl, rfl⟩⟩

theorem walk_le (node : ListNode) (ls : List Str) (n : Nat) (lv : Option (Bool × Nat))
    (hlv : ∀ e m, lv = some (e, m) → m ≤ n) :
    ∀ e' m', walk node ls n lv = some (e', m') → m' ≤ n + ls.length := by
  induction ls generalizing node n lv with
  | nil =>
    intro e' m' h
    simp only [walk] at h
    have := hlv e' m' h
    omega
  | cons label rest ih =>
    intro e' m' h
    simp only [walk] at h
    have hrec : ∀ child : ListNode,
        walk child rest (n + 1) (recordLeaf child (n + 1) lv) = some (e', m') →
        m' ≤ n + (label :: rest).length := by
      intro child hw
      have hlv' : ∀ e m, recordLeaf child (n + 1) lv = some (e, m) → m ≤ n + 1 := by
        intro e m hr
        unfold recordLeaf at hr
        split at hr
        · simp only [Option.some.injEq, Prod.mk.injEq] at hr
          obtain ⟨-, h2⟩ := hr
          omega
        · have := hlv e m hr
          omega
      have := ih child (n + 1) (recordLeaf child (n + 1) lv) hlv' e' m' hw
      simp only [List.length_cons]
      omega
    cases h1 : lookupChild node.children label with
    | some child =>
      rw [h1] at h
      exact hrec child h
    | none =>
      rw [h1] at h
      cases h2 : lookupChild node.children ['*'] with
      | some child =>
        rw [h2] at h
        exact hrec child h
      | none =>
        rw [h2] at h
        have := hlv e' m' h
        simp only [List.length_cons]
        omega

theorem build_star {t : Str} {l : SuffixList} (h : build t = .ok l) :
    ∃ st, lookupChild l.root.children ['*'] = some st ∧ st.leaf = some ⟨false⟩ := by
  unfold build at h
  split at h
  · exact Except.noConfusion h
  · next root happ =>
    split at h
    · exact Except.noConfusion h
    · split at h
      · exact Except.noConfusion h
      · next root' happend =>
        have hbig : append root PREVAILING_STAR_RULE =
            .ok (ListNode.mk
              (updateChild root.children ['*']
                (ListNode.mk
                  ((lookupChild root.children ['*']).getD ListNode.new).children
                  (some ⟨false⟩)))
              root.leaf) := rfl
        rw [happend] at hbig
        obtain rfl := Except.ok.inj hbig
        obtain rfl := Except.ok.inj h
        exact ⟨_, lookup_update_self _ _ _, rfl⟩

theorem new_none_none (nm : Str) :
    DnsName.new nm none none = some ⟨nm, nm.reverse, none, none, none⟩ := rfl

theorem new_some_none (nm : Str) (sufR : RRange) :
    DnsName.new nm (some sufR) none =
      some ⟨nm, nm.reverse, some sufR, none, none⟩ := rfl

theorem new_some_full {nm : Str} {sufR rtR : RRange} {d : DnsName}
    (h : DnsName.new nm (some sufR) (some rtR) = some d) :
    0 < sufR.start ∧
      d = ⟨nm, nm.reverse, some sufR, some rtR, some ⟨rtR.start, sufR.start - 1⟩⟩ := by
  simp only [DnsName.new] at h
  split at h
  · exact Option.noConfusion h
  · refine ⟨Nat.pos_of_ne_zero (by assumption), (Option.some.inj h).symm⟩

theorem finishMatch_ok_cases {inp dom : Str} {lv : Option (Bool × Nat)} {d : DnsName}
    (h : finishMatch inp dom lv = .ok d) :
    d.name = inp ∧ d.rname = inp.reverse ∧
      ((d.suffix = none ∧ d.root = none ∧ d.registrable = none) ∨
        ∃ n A sStart, subname_length dom n = some A ∧
          checkedSub dom.length A = some sStart ∧
          d.suffix = some ⟨sStart, dom.length⟩ ∧
          ((dom.count '.' + 1 ≤ n ∧ d.root = none ∧ d.registrable = none) ∨
            ∃ A' rStart, n < dom.count '.' + 1 ∧
              subname_length dom (n + 1) = some A' ∧
              checkedSub dom.length A' = some rStart ∧
              0 < sStart ∧
              d.root = some ⟨rStart, dom.length⟩ ∧
              d.registrable = some ⟨rStart, sStart - 1⟩)) := by
  cases lv with
  | none =>
    simp only [finishMatch] at h
    split at h
    · next dd hnew =>
      rw [new_none_none] at hnew
      obtain rfl := Option.some.inj hnew
      obtain rfl := MatchResult.ok.inj h
      exact ⟨rfl, rfl, Or.inl ⟨rfl, rfl, rfl⟩⟩
    · exact MatchResult.noConfusion h
  | some p =>
    obtain ⟨isExc, sLen⟩ := p
    simp only [finishMatch] at h
    generalize (if isExc = true then sLen - 1 else sLen) = n at h
    split at h
    · exact MatchResult.noConfusion h
    · next subLen hsub =>
      split at h
      · exact MatchResult.noConfusion h
      · next sStart hcs =>
        split at h
        · next hgt =>
          split at h
          · exact MatchResult.noConfusion h
          · next rootLen hsub2 =>
            split at h
            · exact MatchResult.noConfusion h
            · next rStart hcs2 =>
              split at h
              · next dd hnew =>
                obtain ⟨hpos, rfl⟩ := new_some_full hnew
                obtain rfl := MatchResult.ok.inj h
                refine ⟨rfl, rfl, Or.inr
                  ⟨_, subLen, sStart, hsub, hcs, rfl, Or.inr
                    ⟨rootLen, rStart, by omega, hsub2, hcs2, hpos, rfl, rfl⟩⟩⟩
              · exact MatchResult.noConfusion h
        · next hle =>
          split at h
          · next dd hnew =>
            rw [new_some_none] at hnew
            obtain rfl := Option.some.inj hnew
            obtain rfl := MatchResult.ok.inj h
            refine ⟨rfl, rfl, Or.inr
              ⟨_, subLen, sStart, hsub, hcs, rfl, Or.inl ⟨by omega, rfl, rfl⟩⟩⟩
          · exact MatchResult.noConfusion h

theorem finishMatch_ne_invalid (inp dom : Str) (lv : Option (Bool × Nat)) :
    finishMatch inp dom lv ≠ .invalidInput := by
  intro h
  cases lv with
  | none =>
    simp only [finishMatch] at h
    split at h <;> exact MatchResult.noConfusion h
  | some p =>
    obtain ⟨isExc, sLen⟩ := p
    simp only [finishMatch] at h
    repeat'
      first
      | exact MatchResult.noConfusion h
      | split at h

theorem startsWithDot_singleton {s : Str}
    (h : s.length = 1 ∧ startsWithDot s = true) : s = ['.'] := by
  obtain ⟨hlen, hdot⟩ := h
  cases s with
  | nil => simp at hlen
  | cons c t =>
    cases t with
    | nil =>
      simp only [startsWithDot, decide_eq_true_eq] at hdot
      rw [hdot]
    | cons c2 t2 => simp at hlen

theorem find_match_ok_cases {s : Str} {l : SuffixList} {d : DnsName}
    (h : find_match s l = .ok d) :
    (s = ['.'] ∧ d = ⟨['.'], ['.'], none, none, none⟩) ∨
    (startsWithDot s = false ∧
      (splitChar '.' (trimEndDots (to_ascii_lowercase s))).any
        (fun label => label.isEmpty || label.contains ' ') = false ∧
      finishMatch (to_ascii_lowercase s) (trimEndDots (to_ascii_lowercase s))
        (walk l.root ((splitChar '.' (trimEndDots (to_ascii_lowercase s))).reverse)
          0 none) = .ok d) := by
  simp only [find_match] at h
  split_ifs at h with h1 h2 h3
  · left
    obtain rfl := startsWithDot_singleton h1
    split at h
    · next dd hnew =>
      rw [new_none_none] at hnew
      obtain rfl := Option.some.inj hnew
      obtain rfl := MatchResult.ok.inj h
      exact ⟨rfl, rfl⟩
    · exact MatchResult.noConfusion h
  · right
    refine ⟨?_, ?_, h⟩
    · rcases hsd : startsWithDot s with _ | _
      · rfl
      · exact absurd hsd h2
    · rcases hany : (splitChar '.' (trimEndDots (to_ascii_lowercase s))).any
          (fun label => label.isEmpty || label.contains ' ') with _ | _
      · rfl
      · exact absurd hany h3

theorem drop_append_le {l₁ l₂ : Str} {n : Nat} (h : n ≤ l₁.length) :
    (l₁ ++ l₂).drop n = l₁.drop n ++ l₂ := by
  rw [List.drop_append_eq_append_drop, Nat.sub_eq_zero_of_le h, List.drop_zero]

theorem labels_nonempty_of_any_false {t : Str}
    (hval : (splitChar '.' t).any
      (fun label => label.isEmpty || label.contains ' ') = false) :
    ∀ lab ∈ splitChar '.' t, lab ≠ [] := by
  intro lab hlab hcon
  subst hcon
  rw [List.any_eq_false] at hval
  have := hval [] hlab
  simp at this

/-- Claim C9: for every `DnsName` produced by a successful classification,
`rname` is the character-reversal of `name`, and reversing `rname`
reproduces `name` exactly. -/
theorem C9_rname_reversal (l : SuffixList) (s : Str) (d : DnsName)
    (h : find_match s l = .ok d) :
    d.rname = d.name.reverse ∧ d.rname.reverse = d.name := by
  rcases find_match_ok_cases h with ⟨rfl, rfl⟩ | ⟨-, -, hfin⟩
  · exact ⟨rfl, rfl⟩
  · obtain ⟨hname, hrname, -⟩ := finishMatch_ok_cases hfin
    rw [hname, hrname]
    exact ⟨rfl, List.reverse_reverse _⟩

/-- The classification of `foo.com` against the rule list `com`, used to
witness the round-trip theorem on a concrete name. -/
def dFooCom : DnsName :=
  ⟨fooCom, ['m','o','c','.','o','o','f'], some ⟨4, 7⟩, some ⟨0, 7⟩, some ⟨0, 3⟩⟩

/-- Witness for C9 at the concrete name `foo.com` and rule list `com`. -/
theorem C9_rname_reversal_witness :
    dFooCom.rname = dFooCom.name.reverse ∧ dFooCom.rname.reverse = dFooCom.name :=
  C9_rname_reversal (builtOrEmpty comRules) fooCom dFooCom rfl

/-- Claim C3, amended: `classify` returns `InvalidInput` exactly when the
input differs from the exact string `"."` and either starts with a dot or
has (after lowercasing and trailing-dot trimming) an empty label or a
label containing the SPACE character.  Other whitespace (tab etc.) is NOT
rejected — the code checks only `' '`.  The exact input `"."` succeeds. -/
theorem C3_invalid_input_iff (l : SuffixList) (s : Str) :
    (find_match s l = .invalidInput ↔
      s ≠ ['.'] ∧ (startsWithDot s = true ∨
        (splitChar '.' (trimEndDots (to_ascii_lowercase s))).any
          (fun label => label.isEmpty || label.contains ' ') = true)) ∧
    find_match ['.'] l = .ok ⟨['.'], ['.'], none, none, none⟩ := by
  refine ⟨⟨?_, ?_⟩, rfl⟩
  · intro h
    simp only [find_match] at h
    split_ifs at h with h1 h2 h3
    · exfalso
      split at h <;> exact MatchResult.noConfusion h
    · refine ⟨?_, Or.inl h2⟩
      intro hcon
      subst hcon
      exact h1 ⟨rfl, rfl⟩
    · refine ⟨?_, Or.inr h3⟩
      intro hcon
      subst hcon
      exact h2 rfl
    · exact absurd h (finishMatch_ne_invalid _ _ _)
  · rintro ⟨hne, hcond⟩
    simp only [find_match]
    split_ifs with h1 h2 h3
    · exact absurd (startsWithDot_singleton h1) hne
    · rfl
    · rfl
    · rcases hcond with hc | hc
      · exact absurd hc h2
      · exact absurd hc h3

/-- Claim C5, amended: for every successful classification, the stored
suffix and root ranges end at the trimmed name's length, but the `suffix`
and `root` accessors slice from the stored start offset to the end of the
FULL stored name (the stored end offset is ignored), so for an input with
a trailing dot the returned texts INCLUDE the trailing dot. -/
theorem C5_stored_stop_and_accessor_texts (l : SuffixList) (s : Str) (d : DnsName)
    (h : find_match s l = .ok d) :
    (∀ r : RRange, d.suffix = some r →
      r.stop = (trimEndDots (to_ascii_lowercase s)).length ∧
      d.name = to_ascii_lowercase s ∧
      d.suffixText = some (d.name.drop r.start)) ∧
    (∀ r : RRange, d.root = some r →
      r.stop = (trimEndDots (to_ascii_lowercase s)).length ∧
      d.rootText = some (d.name.drop r.start)) := by
  rcases find_match_ok_cases h with ⟨rfl, rfl⟩ | ⟨hdot, hval, hfin⟩
  · exact ⟨fun r hr => absurd hr (by simp), fun r hr => absurd hr (by simp)⟩
  · obtain ⟨hname, hrname, hcases⟩ := finishMatch_ok_cases hfin
    have htrim := trimEndDots_idem (to_ascii_lowercase s)
    have hvalne := labels_nonempty_of_any_false hval
    have hlen_le := length_trimEndDots_le (to_ascii_lowercase s)
    rcases hcases with ⟨hsn, hrn, -⟩ | ⟨n, A, sStart, hsub, hcs, hsuf, hrest⟩
    · constructor
      · intro r hr
        rw [hsn] at hr
        exact absurd hr (by simp)
      · intro r hr
        rw [hrn] at hr
        exact absurd hr (by simp)
    · obtain ⟨hAle, hsS⟩ := checkedSub_some hcs
      have hApos := subname_pos htrim hvalne hsub
      constructor
      · intro r hr
        rw [hsuf] at hr
        obtain rfl := Option.some.inj hr
        refine ⟨rfl, hname, ?_⟩
        have hlt : sStart < d.name.length := by
          rw [hname]
          omega
        simp only [DnsName.suffixText, hsuf, if_pos hlt]
      · intro r hr
        rcases hrest with ⟨-, hrn, -⟩ | ⟨A', rStart, hgt, hsub2, hcs2, hpos, hroot, -⟩
        · rw [hrn] at hr
          exact absurd hr (by simp)
        · rw [hroot] at hr
          obtain rfl := Option.some.inj hr
          obtain ⟨hA'le, hrS⟩ := checkedSub_some hcs2
          have hA'pos := subname_pos htrim hvalne hsub2
          refine ⟨rfl, ?_⟩
          have hlt : rStart < d.name.length := by
            rw [hname]
            omega
          simp only [DnsName.rootText, hroot, if_pos hlt]

/-- The classification of `wWw.BlUeCaTnEtWoRkS.Uk.CoM.` against the rule
list `uk.com`: ranges end at the trimmed length 26 while the stored name
has 27 characters (the trailing dot). -/
def dBluecat : DnsName :=
  ⟨bluecatLower,
   ['.','m','o','c','.','k','u','.','s','k','r','o','w','t','e','n','t','a','c',
    'e','u','l','b','.','w','w','w'],
   some ⟨20, 26⟩, some ⟨4, 26⟩, some ⟨4, 19⟩⟩

/-- Witness for the amended C5 at the trailing-dot name: the accessor
texts run to the end of the stored name. -/
theorem C5_stored_stop_witness :
    dBluecat.suffixText = some (dBluecat.name.drop 20) ∧
    dBluecat.rootText = some (dBluecat.name.drop 4) :=
  ⟨((C5_stored_stop_and_accessor_texts (builtOrEmpty ukComRules) bluecatName
      dBluecat rfl).1 ⟨20, 26⟩ rfl).2.2,
   ((C5_stored_stop_and_accessor_texts (builtOrEmpty ukComRules) bluecatName
      dBluecat rfl).2 ⟨4, 26⟩ rfl).2⟩

/-- Claim C5, counterexample: for the trailing-dot input
`wWw.BlUeCaTnEtWoRkS.Uk.CoM.` with rule list `uk.com`, the suffix text is
`uk.com.` and the root text is `bluecatnetworks.uk.com.` — both INCLUDE
the trailing dot, contradicting the claim that the accessor returns the
substring at the stored byte range (which ends at the trimmed length). -/
theorem C5_counterexample :
    ∃ l, build ukComRules = .ok l ∧
      find_match bluecatName l = .ok dBluecat ∧
      dBluecat.suffixText = some ['u','k','.','c','o','m','.'] ∧
      dBluecat.rootText = some
        ['b','l','u','e','c','a','t','n','e','t','w','o','r','k','s',
         '.','u','k','.','c','o','m','.'] ∧
      dBluecat.suffix = some ⟨20, 26⟩ ∧ dBluecat.name.length = 27 :=
  ⟨builtOrEmpty ukComRules, rfl, rfl, rfl, rfl, rfl, rfl⟩

/-- Claim C8: whenever the `registrable` accessor of a classification
result is present, the `root` and `suffix` accessors are present and the
texts satisfy `root = registrable ++ "." ++ suffix` exactly; moreover the
stored ranges satisfy `root.start = registrable.start` and
`suffix.start = registrable.stop + 1` (the byte between them being the
separating dot). -/
theorem C8_registrable_concat (l : SuffixList) (s : Str) (d : DnsName) (v : Str)
    (h : find_match s l = .ok d) (hreg : d.registrableText = some v) :
    ∃ rt sf : Str, d.rootText = some rt ∧ d.suffixText = some sf ∧
      rt = v ++ '.' :: sf ∧
      ∃ rr sr gr : RRange, d.root = some rr ∧ d.suffix = some sr ∧
        d.registrable = some gr ∧ rr.start = gr.start ∧ sr.start = gr.stop + 1 := by
  rcases find_match_ok_cases h with ⟨rfl, rfl⟩ | ⟨hdot, hval, hfin⟩
  · exact absurd hreg (by simp [DnsName.registrableText])
  · obtain ⟨hname, hrname, hcases⟩ := finishMatch_ok_cases hfin
    have htrim := trimEndDots_idem (to_ascii_lowercase s)
    have hvalne := labels_nonempty_of_any_false hval
    rcases hcases with ⟨-, -, hgn⟩ | ⟨n, A, sStart, hsub, hcs, hsuf, hrest⟩
    · exact absurd hreg (by simp [DnsName.registrableText, hgn])
    · rcases hrest with ⟨-, -, hgn⟩ |
        ⟨A', rStart, hgt, hsub2, hcs2, hpos, hroot, hregr⟩
      · exact absurd hreg (by simp [DnsName.registrableText, hgn])
      · obtain ⟨hAle, hsS⟩ := checkedSub_some hcs
        obtain ⟨hA'le, hrS⟩ := checkedSub_some hcs2
        have hApos := subname_pos htrim hvalne hsub
        have hA'pos := subname_pos htrim hvalne hsub2
        have hklen : n < (splitChar '.' (trimEndDots (to_ascii_lowercase s))).length := by
          have hcount := count_splitChar '.' (trimEndDots (to_ascii_lowercase s))
          omega
        obtain ⟨mid, hmid, hA'eq, hA'leL⟩ := subname_succ_decomp htrim hklen hsub hsub2
        obtain ⟨ds, hds, hsdecomp⟩ := trimEndDots_decomp (to_ascii_lowercase s)
        have hnames : d.name = trimEndDots (to_ascii_lowercase s) ++ ds := by
          rw [hname]
          exact hsdecomp
        have hnl : d.name.length =
            (trimEndDots (to_ascii_lowercase s)).length + ds.length := by
          rw [hnames, List.length_append]
        have hslt : sStart < d.name.length := by omega
        have hrlt : rStart < d.name.length := by omega
        have hglt : sStart - 1 < d.name.length := by omega
        have hdrop_s : d.name.drop sStart =
            (trimEndDots (to_ascii_lowercase s)).drop sStart ++ ds := by
          rw [hnames]
          exact drop_append_le (by omega)
        have hdrop_r : d.name.drop rStart =
            (trimEndDots (to_ascii_lowercase s)).drop rStart ++ ds := by
          rw [hnames]
          exact drop_append_le (by omega)
        have hmid' : (trimEndDots (to_ascii_lowercase s)).drop rStart =
            mid ++ '.' :: (trimEndDots (to_ascii_lowercase s)).drop sStart := by
          rw [hsS, hrS]
          exact hmid
        have hregval : d.registrableText =
            some ((d.name.drop rStart).take (sStart - 1 - rStart)) := by
          simp only [DnsName.registrableText, hregr]
          rw [if_pos ⟨hrlt, hglt⟩]
        rw [hregval] at hreg
        obtain rfl := Option.some.inj hreg
        have hsufval : d.suffixText =
            some ((trimEndDots (to_ascii_lowercase s)).drop sStart ++ ds) := by
          simp only [DnsName.suffixText, hsuf]
          rw [if_pos hslt, hdrop_s]
        have hrootval : d.rootText =
            some (mid ++ '.' ::
              ((trimEndDots (to_ascii_lowercase s)).drop sStart ++ ds)) := by
          simp only [DnsName.rootText, hroot]
          rw [if_pos hrlt, hdrop_r, hmid']
          simp
        have hvmid : (d.name.drop rStart).take (sStart - 1 - rStart) = mid := by
          rw [hdrop_r, hmid']
          have hlen : sStart - 1 - rStart = mid.length := by omega
          rw [hlen]
          rw [show (mid ++ '.' :: (trimEndDots (to_ascii_lowercase s)).drop sStart)
              ++ ds =
              mid ++ ('.' :: ((trimEndDots (to_ascii_lowercase s)).drop sStart ++ ds))
              from by simp]
          exact List.take_left _ _
        refine ⟨mid ++ '.' :: ((trimEndDots (to_ascii_lowercase s)).drop sStart ++ ds),
          (trimEndDots (to_ascii_lowercase s)).drop sStart ++ ds,
          hrootval, hsufval, ?_,
          ⟨rStart, (trimEndDots (to_ascii_lowercase s)).length⟩,
          ⟨sStart, (trimEndDots (to_ascii_lowercase s)).length⟩,
          ⟨rStart, sStart - 1⟩, hroot, hsuf, hregr, rfl, ?_⟩
        · rw [hvmid]
        · show sStart = sStart - 1 + 1
          omega

/-- The classification of `www.example.com` against the rule list `com`,
used to witness the registrable-concatenation invariant. -/
def dWwwExample : DnsName :=
  ⟨['w','w','w','.','e','x','a','m','p','l','e','.','c','o','m'],
   ['m','o','c','.','e','l','p','m','a','x','e','.','w','w','w'],
   some ⟨12, 15⟩, some ⟨4, 15⟩, some ⟨4, 11⟩⟩

/-- Witness for C8 at the concrete name `www.example.com` with rule list
`com`: root text = registrable text ++ "." ++ suffix text. -/
theorem C8_registrable_concat_witness :
    ∃ rt sf : Str, dWwwExample.rootText = some rt ∧
      dWwwExample.suffixText = some sf ∧
      rt = ['e','x','a','m','p','l','e'] ++ '.' :: sf ∧
      ∃ rr sr gr : RRange, dWwwExample.root = some rr ∧
        dWwwExample.suffix = some sr ∧ dWwwExample.registrable = some gr ∧
        rr.start = gr.start ∧ sr.start = gr.stop + 1 :=
  C8_registrable_concat (builtOrEmpty comRules)
    ['w','w','w','.','e','x','a','m','p','l','e','.','c','o','m']
    dWwwExample ['e','x','a','m','p','l','e'] rfl rfl

/-- Claim C1, amended: the fallback star rule guarantees a suffix of at
least one label for every valid name WHOSE RIGHTMOST LABEL HAS NO
EXPLICIT ENTRY among the trie root's children.  (When an explicit
multi-label rule shares the rightmost label — e.g. only `co.uk` against
`foo.uk` — the walk follows the explicit branch, the root's `*` child is
shadowed, and classification can return no suffix at all.) -/
theorem C1_fallback_suffix (t : Str) (l : SuffixList) (s : Str) (rl : Str)
    (rest : List Str)
    (hb : build t = .ok l)
    (hdot : startsWithDot s = false)
    (hval : (splitChar '.' (trimEndDots (to_ascii_lowercase s))).any
      (fun label => label.isEmpty || label.contains ' ') = false)
    (hrev : (splitChar '.' (trimEndDots (to_ascii_lowercase s))).reverse = rl :: rest)
    (hshadow : lookupChild l.root.children rl = none) :
    ∃ d r, find_match s l = .ok d ∧ d.suffix = some r ∧ r.start < r.stop := by
  obtain ⟨st, hstar, hleaf⟩ := build_star hb
  have htrim := trimEndDots_idem (to_ascii_lowercase s)
  have hvalne := labels_nonempty_of_any_false hval
  have hfm : find_match s l = finishMatch (to_ascii_lowercase s)
      (trimEndDots (to_ascii_lowercase s))
      (walk l.root ((splitChar '.' (trimEndDots (to_ascii_lowercase s))).reverse)
        0 none) := by
    simp only [find_match]
    rw [if_neg (by simp [hdot]), if_neg (by simp [hdot]),
      if_neg (by rw [hval]; exact Bool.false_ne_true)]
  rw [hrev] at hfm
  have hwalk1 : walk l.root (rl :: rest) 0 none =
      walk st rest 1 (some (false, 1)) := by
    simp [walk, hshadow, hstar, recordLeaf, hleaf]
  obtain ⟨e', m', hw, hdisj⟩ := walk_some st rest 1 false 1
  have hk : (splitChar '.' (trimEndDots (to_ascii_lowercase s))).length =
      rest.length + 1 := by
    have := congrArg List.length hrev
    simpa using this
  have hm'le : m' ≤ (splitChar '.' (trimEndDots (to_ascii_lowercase s))).length := by
    have := walk_le st rest 1 (some (false, 1))
      (by
        intro e m hm
        simp only [Option.some.injEq, Prod.mk.injEq] at hm
        omega) e' m' hw
    omega
  have hm'pos : 1 ≤ m' := by
    rcases hdisj with ⟨-, rfl⟩ | hlt
    · omega
    · omega
  have hnEff_pos : 0 < (if e' = true then m' - 1 else m') := by
    rcases hdisj with ⟨he, rfl⟩ | hlt
    · rw [he]
      simp
    · by_cases he : e' = true <;> simp [he] <;> omega
  have hnEff_le : (if e' = true then m' - 1 else m') ≤
      (splitChar '.' (trimEndDots (to_ascii_lowercase s))).length := by
    split <;> omega
  obtain ⟨A, hsubA⟩ := subname_isSome (trimEndDots (to_ascii_lowercase s)) hnEff_pos
  have hApos := subname_pos htrim hvalne hsubA
  have hAle := subname_le_length htrim hnEff_le hsubA
  have hcsA : checkedSub (trimEndDots (to_ascii_lowercase s)).length A =
      some ((trimEndDots (to_ascii_lowercase s)).length - A) := by
    unfold checkedSub
    rw [if_pos hAle]
  have hcount := count_splitChar '.' (trimEndDots (to_ascii_lowercase s))
  by_cases hgt : (trimEndDots (to_ascii_lowercase s)).count '.' + 1 >
      (if e' = true then m' - 1 else m')
  · have hlt_k : (if e' = true then m' - 1 else m') <
        (splitChar '.' (trimEndDots (to_ascii_lowercase s))).length := by omega
    obtain ⟨A', hsubA'⟩ := subname_isSome (trimEndDots (to_ascii_lowercase s))
      (by omega : 0 < (if e' = true then m' - 1 else m') + 1)
    have hA'le := subname_le_length htrim (by omega) hsubA'
    have hcsA' : checkedSub (trimEndDots (to_ascii_lowercase s)).length A' =
        some ((trimEndDots (to_ascii_lowercase s)).length - A') := by
      unfold checkedSub
      rw [if_pos hA'le]
    obtain ⟨-, -, hAltL, -⟩ := subname_decomp htrim hlt_k hsubA
    refine ⟨⟨to_ascii_lowercase s, (to_ascii_lowercase s).reverse,
      some ⟨(trimEndDots (to_ascii_lowercase s)).length - A,
        (trimEndDots (to_ascii_lowercase s)).length⟩,
      some ⟨(trimEndDots (to_ascii_lowercase s)).length - A',
        (trimEndDots (to_ascii_lowercase s)).length⟩,
      some ⟨(trimEndDots (to_ascii_lowercase s)).length - A',
        (trimEndDots (to_ascii_lowercase s)).length - A - 1⟩⟩,
      ⟨(trimEndDots (to_ascii_lowercase s)).length - A,
        (trimEndDots (to_ascii_lowercase s)).length⟩,
      ?_, rfl,
      (show (trimEndDots (to_ascii_lowercase s)).length - A <
        (trimEndDots (to_ascii_lowercase s)).length by omega)⟩
    rw [hfm, hwalk1, hw]
    simp only [finishMatch, hsubA, hcsA, hsubA', hcsA']
    rw [if_pos hgt]
    have hnew : DnsName.new (to_ascii_lowercase s)
        (some ⟨(trimEndDots (to_ascii_lowercase s)).length - A,
          (trimEndDots (to_ascii_lowercase s)).length⟩)
        (some ⟨(trimEndDots (to_ascii_lowercase s)).length - A',
          (trimEndDots (to_ascii_lowercase s)).length⟩) =
        some ⟨to_ascii_lowercase s, (to_ascii_lowercase s).reverse,
          some ⟨(trimEndDots (to_ascii_lowercase s)).length - A,
            (trimEndDots (to_ascii_lowercase s)).length⟩,
          some ⟨(trimEndDots (to_ascii_lowercase s)).length - A',
            (trimEndDots (to_ascii_lowercase s)).length⟩,
          some ⟨(trimEndDots (to_ascii_lowercase s)).length - A',
            (trimEndDots (to_ascii_lowercase s)).length - A - 1⟩⟩ := by
      simp only [DnsName.new]
      rw [if_neg]
      intro hcon
      have hcon' : (trimEndDots (to_ascii_lowercase s)).length - A = 0 := hcon
      omega
    simp only [hnew]
  · refine ⟨⟨to_ascii_lowercase s, (to_ascii_lowercase s).reverse,
      some ⟨(trimEndDots (to_ascii_lowercase s)).length - A,
        (trimEndDots (to_ascii_lowercase s)).length⟩, none, none⟩,
      ⟨(trimEndDots (to_ascii_lowercase s)).length - A,
        (trimEndDots (to_ascii_lowercase s)).length⟩,
      ?_, rfl,
      (show (trimEndDots (to_ascii_lowercase s)).length - A <
        (trimEndDots (to_ascii_lowercase s)).length by omega)⟩
    rw [hfm, hwalk1, hw]
    simp only [finishMatch, hsubA, hcsA]
    rw [if_neg hgt]
    simp only [DnsName.new]

/-- Witness for the amended C1: with rule list `co.uk` and the name
`foo.com` (whose rightmost label `com` has no explicit entry), the
fallback produces a one-label suffix. -/
theorem C1_fallback_suffix_witness :
    ∃ d r, find_match fooCom (builtOrEmpty coUkRules) = .ok d ∧
      d.suffix = some r ∧ r.start < r.stop :=
  C1_fallback_suffix coUkRules (builtOrEmpty coUkRules) fooCom
    ['c','o','m'] [['f','o','o']] rfl rfl rfl rfl rfl

/-- Claim C7, amended: for a compiled rule list whose root has no child
for the label `madeup` and whose root's wildcard child is a pure leaf
with no children of its own (i.e. no user rule's rightmost label is
`madeup` or `*`), classifying `foo.madeup` succeeds with suffix text
`madeup` via the wildcard fallback, and the root is PRESENT with text
`foo.madeup` (and registrable text `foo`); root is absent only for
single-label names. -/
theorem C7_wildcard_fallback (l : SuffixList) (st : ListNode)
    (h1 : lookupChild l.root.children ['m','a','d','e','u','p'] = none)
    (h2 : lookupChild l.root.children ['*'] = some st)
    (h3 : st.leaf = some ⟨false⟩)
    (h4 : st.children = []) :
    ∃ d, find_match fooMadeup l = .ok d ∧
      d.suffixText = some ['m','a','d','e','u','p'] ∧
      d.rootText = some fooMadeup ∧
      d.registrableText = some ['f','o','o'] := by
  have hfm : find_match fooMadeup l =
      finishMatch fooMadeup fooMadeup
        (walk l.root [['m','a','d','e','u','p'], ['f','o','o']] 0 none) := by
    simp only [find_match]
    rw [if_neg (by decide), if_neg (by decide), if_neg (by decide)]
    rfl
  have hwalk : walk l.root [['m','a','d','e','u','p'], ['f','o','o']] 0 none =
      some (false, 1) := by
    simp [walk, h1, h2, recordLeaf, h3, h4, lookupChild]
  rw [hfm, hwalk]
  exact ⟨⟨fooMadeup, ['p','u','e','d','a','m','.','o','o','f'],
    some ⟨4, 10⟩, some ⟨0, 10⟩, some ⟨0, 3⟩⟩, rfl, rfl, rfl, rfl⟩

/-- Witness for the amended C7 at the concrete rule list `com`. -/
theorem C7_wildcard_fallback_witness :
    ∃ d, find_match fooMadeup (builtOrEmpty comRules) = .ok d ∧
      d.suffixText = some ['m','a','d','e','u','p'] ∧
      d.rootText = some fooMadeup ∧
      d.registrableText = some ['f','o','o'] :=
  C7_wildcard_fallback (builtOrEmpty comRules)
    (ListNode.mk [] (some ⟨false⟩)) rfl rfl rfl rfl

/-- Claim C3, counterexample: the input `exa<TAB>mple.com` has a
whitespace character (a tab) inside a label, yet `classify` SUCCEEDS —
the sanity check tests only for the space character `' '`, so the claim
that any whitespace character is rejected is false. -/
theorem C3_counterexample :
    ∃ l d, build comRules = .ok l ∧ find_match tabName l = .ok d ∧
      (splitChar '.' (trimEndDots (to_ascii_lowercase tabName))).any
        (fun label => label.any (fun c => c.isWhitespace)) = true :=
  ⟨builtOrEmpty comRules,
   ⟨tabName, ['m','o','c','.','e','l','p','m','\t','a','x','e'],
    some ⟨9, 12⟩, some ⟨0, 12⟩, some ⟨0, 8⟩⟩,
   rfl, rfl, rfl⟩
